import Mathlib

/-!
# Shallow embedding of the goccoli ring deque (`src/core/lists.go`)

The repository implements one data structure: a fixed-capacity, array-backed
double-ended queue over `int` elements, with a circular buffer, lazy
initialization, and nil-tolerant public methods.

Modelling conventions:

* A Go `*Deque` receiver is modelled as `Option Deque`: `none` is a nil
  pointer, `some q` a valid instance.  A Go runtime panic (nil dereference or
  out-of-bounds slice read) is modelled as `none` in an `Option` result.
* Go's returned `error` values are modelled with `Except String`.
* Go `int` values never leave the range of a 64-bit machine word in any state
  the claims touch, so buffer indices and counts are modelled as `Nat` and
  elements as `Int`; no wrap-around at 2^63 occurs on the inputs considered
  (the capacity normalizer is analysed only up to 2^34, far below overflow).
* Go computes circular indices with a bitmask: `x & (len(q.buf)-1)`.  For a
  power-of-two length `n`, the two's-complement identity
  `x & (n-1) = x mod n` (valid also for `x = -1`, the only negative value that
  can arise, in `prev` of index 0) lets us embed the mask as true modulo:
  `next` uses `(tail+1) % n`, and `prev r` uses `(r + n - 1) % n`, which
  agrees with `(r-1) & (n-1)` for every `r < n`.  This matches Go even for
  `n = 0` in `next` (Go: `x & -1 = x`; Lean: `x % 0 = x`).
-/

set_option maxRecDepth 8000

namespace Goccoli

/-- Embeds the `Deque` struct of `src/core/lists.go`: a circular `int` buffer
with a logical element count, head/tail slot indices, and a recorded
capacity. -/
structure Deque where
  buf : List Int
  count : Nat
  head : Nat
  tail : Nat
  capacity : Nat
deriving Repr, DecidableEq

/-- Embeds `const minCap = 1024`, the default minimum capacity. -/
def minCap : Nat := 1024

/-- Embeds the effect of `initDeque(q, capacity)` on the instance it
initializes: a `minCap` buffer when `capacity == 0`, otherwise a buffer of the
requested length, with all pointers and the count reset.  Go zero-fills the
`make([]int, c)` slice.  The nil-receiver allocation subtlety of the Go helper
(a nil `q` is replaced by a fresh local allocation that the mutating callers
discard) is handled at the call sites `PushBack`/`PushFront`/`WithCapacity`. -/
def initDeque (capacity : Nat) : Deque :=
  let c := if capacity = 0 then minCap else capacity
  { buf := List.replicate c 0, count := 0, head := 0, tail := 0, capacity := c }

/-- Embeds `(q *Deque) next()`: the slot one past `tail` (masked), or slot 0
when the deque is empty. -/
def Deque.next (q : Deque) : Nat :=
  if q.count ≠ 0 then (q.tail + 1) % q.buf.length else 0

/-- Embeds `(q *Deque) prev(reference)`: the slot one before `reference`
(masked), or slot 0 when the deque is empty. -/
def Deque.prev (q : Deque) (reference : Nat) : Nat :=
  if q.count ≠ 0 then (reference + q.buf.length - 1) % q.buf.length else 0

/-- Embeds `(q *Deque) updateCount()`: increment the count, saturating at the
buffer length. -/
def Deque.updateCount (q : Deque) : Deque :=
  if q.count < q.buf.length then { q with count := q.count + 1 } else q

/-- Embeds `(q *Deque) incrementPointersRight(newIndex)`: when more than one
element is held, move `tail` to the freshly written slot and update `head`
(reset to 0 while `tail` leads it, otherwise to the slot after the new
`tail`). -/
def Deque.incrementPointersRight (q : Deque) (newIndex : Nat) : Deque :=
  if q.count > 1 then
    let q1 := { q with tail := newIndex }
    if q1.tail > q1.head then { q1 with head := 0 } else { q1 with head := q1.next }
  else q

/-- Embeds `(q *Deque) incrementPointersLeft(newIndex)`: the mirrored update
used by `PushFront`. -/
def Deque.incrementPointersLeft (q : Deque) (newIndex : Nat) : Deque :=
  if q.count > 1 then
    let q1 := { q with head := newIndex }
    if q1.head > q1.tail then { q1 with tail := 0 } else { q1 with tail := q1.prev q1.head }
  else q

/-- Embeds the bit-smearing cascade inlined in `WithCapacity`: or the value
with itself shifted right by 1, 2, 4, 8 and 16, spreading the top bit over the
31 positions below it. -/
def smear5 (capacity : Nat) : Nat :=
  let c1 := capacity ||| (capacity >>> 1)
  let c2 := c1 ||| (c1 >>> 2)
  let c3 := c2 ||| (c2 >>> 4)
  let c4 := c3 ||| (c3 >>> 8)
  c4 ||| (c4 >>> 16)

/-- Embeds the capacity-normalization block inlined in `WithCapacity`: when the
request is not a power of two (`capacity & (capacity-1) != 0`), smear the high
bit downward and add one. -/
def normalizeCapacity (capacity : Nat) : Nat :=
  if capacity &&& (capacity - 1) ≠ 0 then smear5 capacity + 1 else capacity

/-- Embeds `WithCapacity(capacity)`: normalize the request and build a fresh
instance (`initDeque(nil, capacity)` returns the new allocation). -/
def WithCapacity (capacity : Nat) : Deque :=
  initDeque (normalizeCapacity capacity)

/-- Embeds `(q *Deque) Cap()`: 0 for a nil receiver, otherwise `len(q.buf)`. -/
def Cap (q : Option Deque) : Nat :=
  match q with
  | none => 0
  | some q => q.buf.length

/-- Embeds `(q *Deque) Len()`: 0 for a nil receiver, otherwise `q.count`. -/
def Len (q : Option Deque) : Nat :=
  match q with
  | none => 0
  | some q => q.count

/-- Embeds the body of `(q *Deque) PushBack(data)` past the nil test: lazily
initialize an empty buffer, write at `next()`, bump the count, and update the
pointers rightward. -/
def Deque.PushBack (q : Deque) (data : Int) : Deque :=
  let q := if q.buf.length = 0 then initDeque 0 else q
  let index := q.next
  let q' := { q with buf := q.buf.set index data }
  let q'' := q'.updateCount
  q''.incrementPointersRight index

/-- Embeds `(q *Deque) PushBack(data)` called through a possibly-nil pointer.
For a nil receiver, Go's `initDeque(q, 0)` binds its fresh allocation only to
the helper's local parameter and its returned pointer is discarded, so
`q.next()` still dereferences nil and panics: the result is `none`. -/
def PushBack (q : Option Deque) (data : Int) : Option Deque :=
  match q with
  | none => none
  | some q => some (q.PushBack data)

/-- Embeds the body of `(q *Deque) PushFront(data)` past the nil test. -/
def Deque.PushFront (q : Deque) (data : Int) : Deque :=
  let q := if q.buf.length = 0 then initDeque 0 else q
  let index := q.prev q.head
  let q' := { q with buf := q.buf.set index data }
  let q'' := q'.updateCount
  q''.incrementPointersLeft index

/-- Embeds `(q *Deque) PushFront(data)` called through a possibly-nil pointer;
as with `PushBack`, a nil receiver panics after the discarded lazy
initialization. -/
def PushFront (q : Option Deque) (data : Int) : Option Deque :=
  match q with
  | none => none
  | some q => some (q.PushFront data)

/-- Embeds `(q *Deque) Head()`: an unguarded read of `q.buf[q.head]`.  The
result is `none` when the read is out of bounds (a Go panic), which is the
case exactly when the buffer is shorter than `head + 1`. -/
def Deque.Head (q : Deque) : Option Int :=
  q.buf[q.head]?

/-- Embeds `(q *Deque) Tail()`: an unguarded read of `q.buf[q.tail]`. -/
def Deque.Tail (q : Deque) : Option Int :=
  q.buf[q.tail]?

/-- Embeds `Head()` through a possibly-nil pointer: a nil receiver dereferences
`q.head` and panics. -/
def Head (q : Option Deque) : Option Int :=
  match q with
  | none => none
  | some q => q.Head

/-- Embeds `Tail()` through a possibly-nil pointer. -/
def Tail (q : Option Deque) : Option Int :=
  match q with
  | none => none
  | some q => q.Tail

/-- Embeds `(q *Deque) PopBack()`.  The outer `Option` is a Go panic (`none`
only on an out-of-bounds `q.Tail()` read, impossible on well-formed states);
the `Except` layer is Go's returned `error`.  On a nil receiver the function
returns the error string; on a non-empty deque it reads the tail value, moves
`tail` back (to 0 from a single element; the Go source has two further,
textually identical `prev` branches that are collapsed here), and decrements
the count; on an empty deque it returns the zero value with no error and no
state change. -/
def PopBack (q : Option Deque) : Option (Except String (Int × Deque)) :=
  match q with
  | none => some (.error "Illegal pop back operation on nil deque.")
  | some q =>
    if q.count ≠ 0 then
      match q.buf[q.tail]? with
      | none => none
      | some t =>
        let q1 := if q.count = 1 then { q with tail := 0 } else { q with tail := q.prev q.tail }
        some (.ok (t, { q1 with count := q1.count - 1 }))
    else
      some (.ok (0, q))

/-- Embeds `(q *Deque) PopFront()`.  Note what the source actually does on a
non-empty deque: it reads the head value, then sets `q.head = q.prev(q.head)`
(one slot backward, away from the tail) and never decrements `q.count`. -/
def PopFront (q : Option Deque) : Option (Except String (Int × Deque)) :=
  match q with
  | none => some (.error "Illegal PopFront on nil deque.")
  | some q =>
    if q.count ≠ 0 then
      match q.buf[q.head]? with
      | none => none
      | some h => some (.ok (h, { q with head := q.prev q.head }))
    else
      some (.ok (0, q))

/-- Embeds `(q *Deque) Contains(key)`: `slices.Contains(q.buf, key)`, a scan of
the whole backing buffer.  A nil receiver dereferences `q.buf` and panics. -/
def Contains (q : Option Deque) (key : Int) : Option Bool :=
  match q with
  | none => none
  | some q => some (q.buf.contains key)

/-- Folds a list of values into the deque with `PushBack`, used to build the
states the spec's test vectors describe. -/
def pushAll (q : Deque) (vs : List Int) : Deque :=
  vs.foldl Deque.PushBack q

/-- The spec's notion of the logical contents of a deque (§3 of spec.md): the
`count` elements found at slots `head, head+1, …` (mod capacity), in
front-to-back order.  Used to state the invariant and membership claims. -/
def elems (q : Deque) : List Int :=
  (List.range q.count).map (fun i => q.buf.getD ((q.head + i) % q.buf.length) 0)

/-! ## Helper lemmas -/

/-- Pushing onto a partially filled fresh run: a deque holding `vs` in a
prefix of an otherwise zero buffer of length `n`, with `head = 0`,
`tail = vs.length - 1` and `count = vs.length`, moves to the same shape with
`v` appended when one more slot is free. -/
theorem pushBack_prefix_state (vs : List Int) (n cp : Nat) (hk : vs.length < n) (v : Int) :
    Deque.PushBack ⟨vs ++ List.replicate (n - vs.length) 0, vs.length, 0, vs.length - 1, cp⟩ v
      = ⟨vs ++ v :: List.replicate (n - (vs.length + 1)) 0, vs.length + 1, 0, vs.length, cp⟩ := by
  set k := vs.length with hkdef
  set B := vs ++ List.replicate (n - k) (0 : Int) with hBdef
  have hlen : B.length = n := by
    rw [hBdef]
    simp only [List.length_append, List.length_replicate]
    omega
  have hne : ¬ B.length = 0 := by omega
  have hset : B.set k v = vs ++ v :: List.replicate (n - (k + 1)) 0 := by
    rw [hBdef, List.set_append, if_neg (by omega)]
    have hrep : List.replicate (n - k) (0 : Int)
        = 0 :: List.replicate (n - (k + 1)) 0 := by
      have hsucc : n - k = (n - (k + 1)) + 1 := by omega
      rw [hsucc, List.replicate_succ]
    rw [hrep]
    simp
  have hidx : Deque.next ⟨B, k, 0, k - 1, cp⟩ = k := by
    simp only [Deque.next]
    split
    · next h =>
      rw [hlen]
      have hk1 : k - 1 + 1 = k := by omega
      rw [hk1, Nat.mod_eq_of_lt hk]
    · next h =>
      omega
  have hupd : Deque.updateCount ⟨B.set k v, k, 0, k - 1, cp⟩
      = ⟨B.set k v, k + 1, 0, k - 1, cp⟩ := by
    simp only [Deque.updateCount]
    rw [if_pos (by rw [List.length_set, hlen]; exact hk)]
  have hinc : Deque.incrementPointersRight ⟨B.set k v, k + 1, 0, k - 1, cp⟩ k
      = ⟨B.set k v, k + 1, 0, k, cp⟩ := by
    simp only [Deque.incrementPointersRight]
    rcases Nat.eq_zero_or_pos k with h0 | hpos
    · rw [if_neg (by omega)]
      simp [h0]
    · rw [if_pos (by omega)]
      rw [if_pos hpos]
  show Deque.PushBack ⟨B, k, 0, k - 1, cp⟩ v = ⟨vs ++ v :: List.replicate (n - (k + 1)) 0, k + 1, 0, k, cp⟩
  simp only [Deque.PushBack]
  rw [if_neg hne, hidx]
  simp only []
  rw [hupd, hinc, hset]

/-- Folding `PushBack` over a value list into a fresh zeroed deque fills a
prefix of the buffer left to right, with `head` pinned at 0 and `tail` at the
last written slot. -/
theorem pushAll_fresh (vs : List Int) (n cp : Nat) (h : vs.length ≤ n) :
    pushAll ⟨List.replicate n 0, 0, 0, 0, cp⟩ vs
      = ⟨vs ++ List.replicate (n - vs.length) 0, vs.length, 0, vs.length - 1, cp⟩ := by
  induction vs using List.reverseRecOn with
  | nil => simp [pushAll]
  | append_singleton l a ih =>
    have hl : l.length < n := by
      have := h
      simp only [List.length_append, List.length_singleton] at this
      omega
    have ihl := ih (Nat.le_of_lt hl)
    calc pushAll ⟨List.replicate n 0, 0, 0, 0, cp⟩ (l ++ [a])
        = Deque.PushBack (pushAll ⟨List.replicate n 0, 0, 0, 0, cp⟩ l) a := by
          simp [pushAll, List.foldl_append]
      _ = Deque.PushBack ⟨l ++ List.replicate (n - l.length) 0, l.length, 0, l.length - 1, cp⟩ a := by
          rw [ihl]
      _ = ⟨l ++ a :: List.replicate (n - (l.length + 1)) 0, l.length + 1, 0, l.length, cp⟩ :=
          pushBack_prefix_state l n cp hl a
      _ = ⟨(l ++ [a]) ++ List.replicate (n - (l ++ [a]).length) 0,
            (l ++ [a]).length, 0, (l ++ [a]).length - 1, cp⟩ := by
          simp [List.length_append]

/-- The constructor-facing capacity: a `WithCapacity` instance's buffer length
is the normalized request, with the `minCap` default for a zero request. -/
theorem cap_withCapacity (r : Nat) :
    Cap (some (WithCapacity r))
      = (if normalizeCapacity r = 0 then minCap else normalizeCapacity r) := by
  simp [Cap, WithCapacity, initDeque]

/-- A fresh zeroed buffer of positive length behaves as a one-shot stack for a
single push/pop pair at the back. -/
theorem popBack_pushBack_fresh (n cp : Nat) (hn : 0 < n) (v : Int) :
    PopBack (some (Deque.PushBack ⟨List.replicate n 0, 0, 0, 0, cp⟩ v))
      = some (.ok (v, ⟨v :: List.replicate (n - 1) 0, 0, 0, 0, cp⟩)) := by
  have hstep := pushBack_prefix_state [] n cp (by simpa using hn) v
  simp only [List.nil_append, Nat.sub_zero, List.length_nil] at hstep
  rw [hstep]
  simp [PopBack]

/-- The pointer-update helpers never touch the buffer contents. -/
theorem updateCount_buf (q : Deque) : q.updateCount.buf = q.buf := by
  simp only [Deque.updateCount]
  split <;> rfl

/-- Rightward pointer updates never touch the buffer contents. -/
theorem incrementPointersRight_buf (q : Deque) (i : Nat) :
    (q.incrementPointersRight i).buf = q.buf := by
  simp only [Deque.incrementPointersRight]
  split
  · split <;> rfl
  · rfl

/-- Leftward pointer updates never touch the buffer contents. -/
theorem incrementPointersLeft_buf (q : Deque) (i : Nat) :
    (q.incrementPointersLeft i).buf = q.buf := by
  simp only [Deque.incrementPointersLeft]
  split
  · split <;> rfl
  · rfl

/-- Rightward pointer updates never touch the count. -/
theorem incrementPointersRight_count (q : Deque) (i : Nat) :
    (q.incrementPointersRight i).count = q.count := by
  simp only [Deque.incrementPointersRight]
  split
  · split <;> rfl
  · rfl

/-- Leftward pointer updates never touch the count. -/
theorem incrementPointersLeft_count (q : Deque) (i : Nat) :
    (q.incrementPointersLeft i).count = q.count := by
  simp only [Deque.incrementPointersLeft]
  split
  · split <;> rfl
  · rfl

/-- A number sitting between consecutive powers of two has its top bit set. -/
theorem testBit_top {r t : Nat} (h1 : 2 ^ t ≤ r) (h2 : r < 2 ^ (t + 1)) :
    r.testBit t = true := by
  rw [Nat.testBit_to_div_mod]
  have hdiv : r / 2 ^ t = 1 := by
    apply Nat.div_eq_of_lt_le
    · simpa using h1
    · have he : (1 + 1) * 2 ^ t = 2 ^ (t + 1) := by
        rw [Nat.pow_succ]
        ring
      rw [he]
      exact h2
  rw [hdiv]
  rfl

/-- A power of two passes Go's `capacity & (capacity-1) == 0` test. -/
theorem pow_land_pred (k : Nat) : 2 ^ k &&& (2 ^ k - 1) = 0 := by
  refine Nat.zero_of_testBit_eq_false fun i => ?_
  rw [Nat.testBit_land, Nat.testBit_two_pow_sub_one]
  by_cases h : i = k
  · subst h
    simp
  · rw [Nat.testBit_two_pow_of_ne fun hk => h hk.symm]
    simp

/-- Conversely, a positive number passing the mask test is the power of two
given by its base-2 logarithm. -/
theorem eq_pow_of_land_pred_eq_zero {r : Nat} (h0 : 0 < r) (h : r &&& (r - 1) = 0) :
    r = 2 ^ r.log2 := by
  by_contra hne
  have h1 : 2 ^ r.log2 ≤ r := Nat.log2_self_le h0.ne'
  have h2 : r < 2 ^ (r.log2 + 1) := Nat.lt_log2_self
  have h3 : 2 ^ r.log2 < r := lt_of_le_of_ne h1 fun he => hne he.symm
  have hb1 : r.testBit r.log2 = true := testBit_top h1 h2
  have hb2 : (r - 1).testBit r.log2 = true := testBit_top (by omega) (by omega)
  have hz : (r &&& (r - 1)).testBit r.log2 = true := by
    rw [Nat.testBit_land, hb1, hb2]
    rfl
  rw [h, Nat.zero_testBit] at hz
  exact Bool.false_ne_true hz

/-- One or-with-shift stage doubles the window of source bits that can reach a
given position. -/
theorem smear_step {r x w : Nat}
    (hx : ∀ j, x.testBit j = true ↔ ∃ d, d < w ∧ r.testBit (j + d) = true) (j : Nat) :
    ((x ||| (x >>> w)).testBit j = true) ↔ ∃ d, d < 2 * w ∧ r.testBit (j + d) = true := by
  rw [Nat.testBit_lor, Bool.or_eq_true, Nat.testBit_shiftRight]
  constructor
  · rintro (h | h)
    · obtain ⟨d, hd, hbit⟩ := (hx j).mp h
      exact ⟨d, by omega, hbit⟩
    · obtain ⟨d, hd, hbit⟩ := (hx (w + j)).mp h
      refine ⟨w + d, by omega, ?_⟩
      have he : j + (w + d) = w + j + d := by omega
      rw [he]
      exact hbit
  · rintro ⟨d, hd, hbit⟩
    by_cases hdw : d < w
    · exact Or.inl ((hx j).mpr ⟨d, hdw, hbit⟩)
    · refine Or.inr ((hx (w + j)).mpr ⟨d - w, by omega, ?_⟩)
      have he : w + j + (d - w) = j + d := by omega
      rw [he]
      exact hbit

/-- Bit `j` of the five-stage smear is set exactly when the source has a set
bit within 32 positions above `j`. -/
theorem smear5_testBit (r : Nat) (j : Nat) :
    ((smear5 r).testBit j = true) ↔ ∃ d, d < 32 ∧ r.testBit (j + d) = true := by
  have hbase : ∀ i, r.testBit i = true ↔ ∃ d, d < 1 ∧ r.testBit (i + d) = true := by
    intro i
    constructor
    · intro h
      exact ⟨0, Nat.one_pos, by simpa using h⟩
    · rintro ⟨d, hd, h⟩
      obtain rfl : d = 0 := by omega
      simpa using h
  have h1 := fun i => smear_step hbase i
  have h2 := fun i => smear_step h1 i
  have h3 := fun i => smear_step h2 i
  have h4 := fun i => smear_step h3 i
  have h5 := fun i => smear_step h4 i
  have hj := h5 j
  simpa [smear5] using hj

/-- For a positive non-power-of-two request of at most `2^33`, the smear-and-
increment normalization produces exactly the next power of two.  (For larger
requests the 32-bit smear window is too narrow and the result is wrong — see
the C5 counterexample.) -/
theorem normalizeCapacity_eq_pow {r : Nat} (h0 : 0 < r) (hnp : r &&& (r - 1) ≠ 0)
    (hle : r ≤ 2 ^ 33) :
    normalizeCapacity r = 2 ^ (r.log2 + 1) := by
  have ht_le : 2 ^ r.log2 ≤ r := Nat.log2_self_le h0.ne'
  have ht_lt : r < 2 ^ (r.log2 + 1) := Nat.lt_log2_self
  have htop : r.testBit r.log2 = true := testBit_top ht_le ht_lt
  have hr33 : r < 2 ^ 33 := by
    rcases lt_or_eq_of_le hle with h | h
    · exact h
    · exact absurd (by rw [h]; exact pow_land_pred 33) hnp
  have ht32 : r.log2 ≤ 32 := by
    have := (Nat.log2_lt h0.ne').mpr hr33
    omega
  have hfill : smear5 r = 2 ^ (r.log2 + 1) - 1 := by
    apply Nat.eq_of_testBit_eq
    intro j
    rw [Nat.testBit_two_pow_sub_one]
    by_cases hj : j < r.log2 + 1
    · rw [decide_eq_true hj, smear5_testBit]
      by_cases hd : r.log2 - j < 32
      · refine ⟨r.log2 - j, hd, ?_⟩
        have he : j + (r.log2 - j) = r.log2 := by omega
        rw [he]
        exact htop
      · have hT : r.log2 = 32 := by omega
        have hj0 : j = 0 := by omega
        have hgt : 2 ^ 32 < r := by
          have hne32 : r ≠ 2 ^ 32 := fun he => hnp (by rw [he]; exact pow_land_pred 32)
          rw [hT] at ht_le
          omega
        have hpow : (2 : Nat) ^ 33 = 2 * 2 ^ 32 := by norm_num
        have hmod : r % 2 ^ 32 = r - 2 ^ 32 := by
          rw [Nat.mod_eq_sub_mod (le_of_lt hgt)]
          apply Nat.mod_eq_of_lt
          omega
        have hu0 : r % 2 ^ 32 ≠ 0 := by omega
        have hulog : (r % 2 ^ 32).log2 < 32 := by
          apply (Nat.log2_lt hu0).mpr
          exact Nat.mod_lt _ (by norm_num)
        have hub : (r % 2 ^ 32).testBit (r % 2 ^ 32).log2 = true :=
          testBit_top (Nat.log2_self_le hu0) Nat.lt_log2_self
        have hrb : r.testBit (r % 2 ^ 32).log2 = true := by
          have hmt := Nat.testBit_mod_two_pow r 32 (r % 2 ^ 32).log2
          rw [hub, decide_eq_true hulog, Bool.true_and] at hmt
          exact hmt.symm
        refine ⟨(r % 2 ^ 32).log2, by omega, ?_⟩
        rw [hj0, Nat.zero_add]
        exact hrb
    · rw [decide_eq_false hj]
      apply Bool.eq_false_iff.mpr
      intro hb
      obtain ⟨d, hd, hbit⟩ := (smear5_testBit r j).mp hb
      have hlt : r < 2 ^ (j + d) := by
        calc r < 2 ^ (r.log2 + 1) := ht_lt
          _ ≤ 2 ^ (j + d) := Nat.pow_le_pow_right (by norm_num) (by omega)
      rw [Nat.testBit_eq_false_of_lt hlt] at hbit
      exact Bool.false_ne_true hbit
  have hcond : normalizeCapacity r = smear5 r + 1 := by
    rw [normalizeCapacity, if_pos hnp]
  rw [hcond, hfill]
  have hone : 1 ≤ 2 ^ (r.log2 + 1) := Nat.one_le_two_pow
  omega

/-! ## Claims -/

/-- C2 (code_bug evaluation): the head/tail/count representation invariant is
not preserved by the implementation.  On a capacity-4 deque, the reachable
push sequence `pushFront 1; pushFront 2; pushBack 7` leaves `count = 3` while
`head = 2` and `tail = 1`, so the circular window `head..tail` spans four
slots, and the spec-defined logical contents `elems` surface the never-written
value `0` at slot 2 instead of the front element `2`: `incrementPointersRight`
recomputed `head` as `next()` although the old head at slot 3 was still
live. -/
theorem c2_invariant_violated :
    (((WithCapacity 4).PushFront 1).PushFront 2).PushBack 7
      = ⟨[1, 7, 0, 2], 3, 2, 1, 4⟩ ∧
    elems ((((WithCapacity 4).PushFront 1).PushFront 2).PushBack 7) = [0, 2, 1] ∧
    (let q := (((WithCapacity 4).PushFront 1).PushFront 2).PushBack 7
     (q.tail + q.buf.length - q.head) % q.buf.length + 1 ≠ q.count) := by
  refine ⟨by decide, by decide, by decide⟩

/-- C3 (code_bug evaluation): `PopFront` on a non-empty deque returns the head
value with no error, but leaves `count` unchanged and moves `head` one slot
backward (`prev`), away from the tail.  On a capacity-4 deque holding `1, 2`,
popping the front yields `1` yet `len()` stays 2 and `head()` becomes the
stale slot-3 value `0` instead of `2`, contradicting the mirrored `popBack`
contract and the repository's own `TestPopFrontLenCap`. -/
theorem c3_popFront_divergence :
    PopFront (some (((WithCapacity 4).PushBack 1).PushBack 2))
      = some (.ok (1, ⟨[1, 2, 0, 0], 2, 3, 1, 4⟩)) ∧
    Len (some (⟨[1, 2, 0, 0], 2, 3, 1, 4⟩ : Deque)) = 2 ∧
    Head (some (⟨[1, 2, 0, 0], 2, 3, 1, 4⟩ : Deque)) = some 0 := by
  refine ⟨rfl, by decide, by decide⟩

/-- C4 counterexample: `Contains` does not hold "iff the value is one of the
`count` logical elements".  A freshly constructed capacity-4 deque has no
logical elements (`elems` is empty), yet `Contains` reports `0` as present,
because it scans the whole zero-initialized backing buffer. -/
theorem c4_contains_counterexample :
    Contains (some (WithCapacity 4)) 0 = some true ∧ elems (WithCapacity 4) = [] := by
  refine ⟨by decide, by decide⟩

/-- C4 (amended): `Contains` has no side effect and returns `true` whenever
the value is among the spec's logical elements, but it scans the entire
backing buffer (`slices.Contains(q.buf, key)`), so it holds exactly for
membership in the raw buffer — including evicted, popped and never-written
slots — rather than membership in the `count` live elements. -/
theorem c4_contains_scans_buffer :
    (∀ (q : Deque) (v : Int), 0 < q.buf.length → v ∈ elems q →
      Contains (some q) v = some true) ∧
    (∀ (q : Deque) (v : Int), Contains (some q) v = some true ↔ v ∈ q.buf) := by
  have hbuf : ∀ (l : List Int) (v : Int), l.contains v = true ↔ v ∈ l := by
    intro l v
    exact List.elem_iff
  constructor
  · intro q v hn hv
    simp only [elems, List.mem_map, List.mem_range] at hv
    obtain ⟨i, hi, hvi⟩ := hv
    have hidx : (q.head + i) % q.buf.length < q.buf.length := Nat.mod_lt _ hn
    have hmem : v ∈ q.buf := by
      rw [← hvi, List.getD_eq_getElem q.buf 0 hidx]
      exact List.getElem_mem hidx
    simp only [Contains, Option.some.injEq]
    exact (hbuf q.buf v).mpr hmem
  · intro q v
    simp only [Contains, Option.some.injEq]
    exact hbuf q.buf v

/-- C4 witness: on the deque `[1, 2]` in a capacity-4 buffer, the element `2`
is among the logical elements and is reported by `Contains`. -/
theorem c4_witness :
    Contains (some (((WithCapacity 4).PushBack 1).PushBack 2)) 2 = some true :=
  c4_contains_scans_buffer.1 (((WithCapacity 4).PushBack 1).PushBack 2) 2
    (by decide) (by decide)

/-- C5 counterexample: the claim fails for large requests.  The smear cascade
only reaches 31 bits below the top bit, so the requested capacity `2^33 + 1`
normalizes to `2^34 - 2` — not a power of two at all, hence not the smallest
power of two (`2^34`) at or above the request. -/
theorem c5_capacity_counterexample :
    Cap (some (WithCapacity (2 ^ 33 + 1))) = 2 ^ 34 - 2 ∧
    ¬ ∃ k, Cap (some (WithCapacity (2 ^ 33 + 1))) = 2 ^ k ∧ 2 ^ 33 + 1 ≤ 2 ^ k ∧
      ∀ m, 2 ^ 33 + 1 ≤ 2 ^ m → k ≤ m := by
  have hnc : normalizeCapacity (2 ^ 33 + 1) = 2 ^ 34 - 2 := by decide
  have hcap : Cap (some (WithCapacity (2 ^ 33 + 1))) = 2 ^ 34 - 2 := by
    rw [cap_withCapacity, hnc, if_neg (by norm_num)]
  refine ⟨hcap, ?_⟩
  rintro ⟨k, hk, hle, hmin⟩
  rw [hcap] at hk
  have h34 : k ≤ 34 := hmin 34 (by norm_num)
  have h34' : 34 ≤ k := by
    by_contra hc
    push_neg at hc
    have hp : (2 : Nat) ^ k ≤ 2 ^ 33 := Nat.pow_le_pow_right (by norm_num) (by omega)
    omega
  obtain rfl : k = 34 := by omega
  norm_num at hk

/-- C5 (amended): for every requested capacity of at most `2^33`, construction
yields `cap() = 1024` (the configured minimum) when the request is 0, and
otherwise the smallest power of two at or above the request (the request
itself when it is already a power of two); in particular `construct(0)` gives
1024 and `construct(5)` gives 8.  Beyond `2^33` the 32-bit smear window falls
short (see the counterexample). -/
theorem c5_capacity_normalization_amended :
    (∀ r : Nat, r ≤ 2 ^ 33 →
      (r = 0 → Cap (some (WithCapacity r)) = minCap) ∧
      (0 < r → ∃ k, Cap (some (WithCapacity r)) = 2 ^ k ∧ r ≤ 2 ^ k ∧
        ∀ m, r ≤ 2 ^ m → k ≤ m)) ∧
    Cap (some (WithCapacity 0)) = 1024 ∧ Cap (some (WithCapacity 5)) = 8 := by
  have hc0 : Cap (some (WithCapacity 0)) = minCap := by
    have hnc : normalizeCapacity 0 = 0 := by decide
    rw [cap_withCapacity, hnc]
    rfl
  refine ⟨?_, hc0, ?_⟩
  · intro r hle
    constructor
    · rintro rfl
      exact hc0
    · intro h0
      by_cases hnp : r &&& (r - 1) ≠ 0
      · have hnc := normalizeCapacity_eq_pow h0 hnp hle
        refine ⟨r.log2 + 1, ?_, Nat.le_of_lt Nat.lt_log2_self, ?_⟩
        · rw [cap_withCapacity, hnc, if_neg (Nat.pos_pow_of_pos _ (by norm_num)).ne']
        · intro m hm
          by_contra hc
          push_neg at hc
          have hp : (2 : Nat) ^ m ≤ 2 ^ r.log2 := Nat.pow_le_pow_right (by norm_num) (by omega)
          have hpr : 2 ^ r.log2 ≤ r := Nat.log2_self_le h0.ne'
          have hreq : r = 2 ^ m := le_antisymm hm (hp.trans hpr)
          exact hnp (by rw [hreq]; exact pow_land_pred m)
      · push_neg at hnp
        have hpow := eq_pow_of_land_pred_eq_zero h0 hnp
        have hnc : normalizeCapacity r = r := by
          rw [normalizeCapacity, if_neg (by simpa using hnp)]
        refine ⟨r.log2, ?_, le_of_eq hpow, ?_⟩
        · rw [cap_withCapacity, hnc, if_neg h0.ne']
          exact hpow
        · intro m hm
          rw [hpow] at hm
          exact (Nat.pow_le_pow_iff_right (by norm_num)).mp hm
  · have hnc : normalizeCapacity 5 = 8 := by decide
    rw [cap_withCapacity, hnc]
    rfl

/-- C5 witness: requesting capacity 5 yields a power-of-two capacity that is
the least one at or above 5 (namely 8). -/
theorem c5_witness :
    ∃ k, Cap (some (WithCapacity 5)) = 2 ^ k ∧ 5 ≤ 2 ^ k ∧ ∀ m, 5 ≤ 2 ^ m → k ≤ m :=
  (c5_capacity_normalization_amended.1 5 (by norm_num)).2 (by norm_num)

/-- C6: pushing any nonempty sequence of at most capacity-many values into a
freshly constructed deque leaves `len()` equal to the number of values pushed,
`head()` the first value pushed, and `tail()` the last value pushed. -/
theorem c6_pushBack_sequence (c : Nat) (vs : List Int) (hne : vs ≠ [])
    (hlen : vs.length ≤ (initDeque c).buf.length) :
    Len (some (pushAll (initDeque c) vs)) = vs.length ∧
    Head (some (pushAll (initDeque c) vs)) = vs.head? ∧
    Tail (some (pushAll (initDeque c) vs)) = vs.getLast? := by
  have hinit : initDeque c = ⟨List.replicate (if c = 0 then minCap else c) 0, 0, 0, 0,
      if c = 0 then minCap else c⟩ := rfl
  set n := if c = 0 then minCap else c with hndef
  have hlen' : vs.length ≤ n := by
    rw [hinit] at hlen
    simpa using hlen
  have h0 : 0 < vs.length := List.length_pos.mpr hne
  rw [hinit, pushAll_fresh vs n n hlen']
  refine ⟨rfl, ?_, ?_⟩
  · simp only [Head, Deque.Head]
    rw [List.getElem?_append_left h0]
    exact (List.head?_eq_getElem? vs).symm
  · simp only [Tail, Deque.Tail]
    rw [List.getElem?_append_left (by omega : vs.length - 1 < vs.length)]
    exact (List.getLast?_eq_getElem? vs).symm

/-- C6 witness: pushing `5, 6, 7` into a capacity-4 deque gives length 3,
head 5, tail 7. -/
theorem c6_witness :
    Len (some (pushAll (initDeque 4) [5, 6, 7])) = 3 ∧
    Head (some (pushAll (initDeque 4) [5, 6, 7])) = some 5 ∧
    Tail (some (pushAll (initDeque 4) [5, 6, 7])) = some 7 :=
  c6_pushBack_sequence 4 [5, 6, 7] (by decide) (by decide)

/-- C7: `PopBack`/`PopFront` return an error exactly on a nil receiver; on a
valid empty deque they return the zero value with no error and leave the state
untouched; on a valid receiver no error is ever produced. -/
theorem c7_pop_error_discipline :
    PopBack none = some (.error "Illegal pop back operation on nil deque.") ∧
    PopFront none = some (.error "Illegal PopFront on nil deque.") ∧
    (∀ q : Deque, q.count = 0 →
      PopBack (some q) = some (.ok (0, q)) ∧ PopFront (some q) = some (.ok (0, q))) ∧
    (∀ (q : Deque) (e : String),
      PopBack (some q) ≠ some (.error e) ∧ PopFront (some q) ≠ some (.error e)) := by
  refine ⟨rfl, rfl, ?_, ?_⟩
  · intro q h
    constructor
    · simp [PopBack, h]
    · simp [PopFront, h]
  · intro q e
    constructor
    · simp only [PopBack]
      split
      · rcases hq : q.buf[q.tail]? with _ | t <;> simp [hq]
      · simp
    · simp only [PopFront]
      split
      · rcases hq : q.buf[q.head]? with _ | t <;> simp [hq]
      · simp

/-- C7 witness: on the freshly constructed (empty) capacity-2 deque, both pops
return the zero value with no error and no state change. -/
theorem c7_witness :
    PopBack (some (WithCapacity 2)) = some (.ok (0, WithCapacity 2)) ∧
    PopFront (some (WithCapacity 2)) = some (.ok (0, WithCapacity 2)) :=
  c7_pop_error_discipline.2.2.1 (WithCapacity 2) (by decide)

/-- C8 counterexample: reading `head()`/`tail()` on an empty but initialized
instance does not fault.  A freshly constructed capacity-4 deque has
`count = 0`, yet both reads succeed and return the residual zero value. -/
theorem c8_empty_peek_counterexample :
    (WithCapacity 4).count = 0 ∧
    Head (some (WithCapacity 4)) = some 0 ∧
    Tail (some (WithCapacity 4)) = some 0 := by
  refine ⟨by decide, by decide, by decide⟩

/-- C8 (amended): `Head`/`Tail` are indeed unguarded on an empty deque, but
the unguarded read faults only when the backing buffer is absent (length 0,
the uninitialized case); on an initialized instance with `count = 0` and an
in-range pointer it returns the residual buffer value as a defined result,
not a fault. -/
theorem c8_empty_peek_amended (q : Deque) (hcount : q.count = 0) :
    (q.buf = [] → Head (some q) = none ∧ Tail (some q) = none) ∧
    (q.head < q.buf.length → Head (some q) = some (q.buf.getD q.head 0)) ∧
    (q.tail < q.buf.length → Tail (some q) = some (q.buf.getD q.tail 0)) := by
  refine ⟨?_, ?_, ?_⟩
  · intro h
    simp [Head, Tail, Deque.Head, Deque.Tail, h]
  · intro h
    simp only [Head, Deque.Head]
    rw [List.getElem?_eq_getElem h, List.getD_eq_getElem q.buf 0 h]
  · intro h
    simp only [Tail, Deque.Tail]
    rw [List.getElem?_eq_getElem h, List.getD_eq_getElem q.buf 0 h]

/-- C8 witness: instantiating the amended statement on the empty capacity-4
deque, whose guard hypotheses hold concretely. -/
theorem c8_witness :
    Head (some (WithCapacity 4)) = some ((WithCapacity 4).buf.getD (WithCapacity 4).head 0) :=
  (c8_empty_peek_amended (WithCapacity 4) (by decide)).2.1 (by decide)

/-- C9: a push/pop pair at the back of a fresh deque — whether explicitly
constructed with any requested capacity or a zero-valued instance initialized
lazily — returns the pushed value with no error and restores `len() = 0`. -/
theorem c9_push_pop_roundtrip (c : Nat) (v : Int) :
    (∃ q', PopBack (PushBack (some (initDeque c)) v) = some (.ok (v, q')) ∧
      Len (some q') = 0) ∧
    (∃ q', PopBack (PushBack (some (⟨[], 0, 0, 0, 0⟩ : Deque)) v) = some (.ok (v, q')) ∧
      Len (some q') = 0) := by
  constructor
  · set n := if c = 0 then minCap else c with hndef
    have hn : 0 < n := by
      rw [hndef]
      split
      · norm_num [minCap]
      · omega
    refine ⟨⟨v :: List.replicate (n - 1) 0, 0, 0, 0, n⟩, ?_, rfl⟩
    have hPB : PushBack (some (initDeque c)) v
        = some (Deque.PushBack ⟨List.replicate n 0, 0, 0, 0, n⟩ v) := rfl
    rw [hPB]
    exact popBack_pushBack_fresh n n hn v
  · refine ⟨⟨v :: List.replicate (minCap - 1) 0, 0, 0, 0, minCap⟩, ?_, rfl⟩
    have hzz : (⟨[], 0, 0, 0, 0⟩ : Deque).PushBack v
        = Deque.PushBack ⟨List.replicate minCap 0, 0, 0, 0, minCap⟩ v := rfl
    have hPB : PushBack (some (⟨[], 0, 0, 0, 0⟩ : Deque)) v
        = some ((⟨[], 0, 0, 0, 0⟩ : Deque).PushBack v) := rfl
    rw [hPB, hzz]
    exact popBack_pushBack_fresh minCap minCap (by norm_num [minCap]) v

/-- C10: pushing through a nil reference faults (the lazy allocation inside
`initDeque` is lost at the call site, so the subsequent write dereferences
nil), while lazy initialization at the default minimum capacity takes effect
exactly for a non-nil instance whose buffer is empty; a non-empty buffer is
never reallocated by a push. -/
theorem c10_nil_push_faults :
    (∀ d : Int, PushBack none d = none) ∧
    (∀ d : Int, PushFront none d = none) ∧
    (∀ (q : Deque) (d : Int), q.buf = [] →
      (q.PushBack d).buf.length = minCap ∧ (q.PushBack d).count = 1 ∧
      (q.PushFront d).buf.length = minCap) ∧
    (∀ (q : Deque) (d : Int), q.buf ≠ [] →
      (q.PushBack d).buf.length = q.buf.length ∧
      (q.PushFront d).buf.length = q.buf.length) := by
  refine ⟨fun d => rfl, fun d => rfl, ?_, ?_⟩
  · intro q d h
    refine ⟨?_, ?_, ?_⟩
    · simp only [Deque.PushBack]
      rw [incrementPointersRight_buf, updateCount_buf]
      simp [h, initDeque, List.length_set, List.length_replicate]
    · simp only [Deque.PushBack]
      rw [incrementPointersRight_count]
      simp [h, initDeque, minCap, Deque.updateCount, Deque.next, List.length_set,
        List.length_replicate]
    · simp only [Deque.PushFront]
      rw [incrementPointersLeft_buf, updateCount_buf]
      simp [h, initDeque, List.length_set, List.length_replicate]
  · intro q d h
    have hlen0 : ¬ q.buf.length = 0 := by
      have := List.length_pos.mpr h
      omega
    constructor
    · simp only [Deque.PushBack]
      rw [incrementPointersRight_buf, updateCount_buf]
      rw [if_neg hlen0]
      simp [List.length_set]
    · simp only [Deque.PushFront]
      rw [incrementPointersLeft_buf, updateCount_buf]
      rw [if_neg hlen0]
      simp [List.length_set]

/-- C1: on a well-formed full deque (`count = capacity`, with `head` the slot
after `tail`), a further `PushBack` overwrites the oldest element (the slot at
`head`), advances both pointers by one slot mod capacity, and keeps the count
saturated; `PushFront` is the mirror image, overwriting the slot at `tail` and
retreating both pointers by one slot; and the spec's concrete vector (capacity
4, pushBack 1..5) yields `len 4`, `head 2`, `tail 5` and no trace of the
evicted `1`. -/
theorem c1_saturated_push_eviction :
    (∀ (q : Deque) (d : Int),
      0 < q.buf.length → q.count = q.buf.length → q.tail < q.buf.length →
      q.head = (q.tail + 1) % q.buf.length →
      (q.PushBack d).count = q.count ∧
      (q.PushBack d).head = (q.head + 1) % q.buf.length ∧
      (q.PushBack d).tail = (q.tail + 1) % q.buf.length ∧
      (q.PushBack d).buf = q.buf.set q.head d) ∧
    (∀ (q : Deque) (d : Int),
      0 < q.buf.length → q.count = q.buf.length → q.tail < q.buf.length →
      q.head = (q.tail + 1) % q.buf.length →
      (q.PushFront d).count = q.count ∧
      (q.PushFront d).head = (q.head + q.buf.length - 1) % q.buf.length ∧
      (q.PushFront d).tail = (q.tail + q.buf.length - 1) % q.buf.length ∧
      (q.PushFront d).buf = q.buf.set q.tail d) ∧
    (Len (some (pushAll (WithCapacity 4) [1, 2, 3, 4, 5])) = 4 ∧
     Head (some (pushAll (WithCapacity 4) [1, 2, 3, 4, 5])) = some 2 ∧
     Tail (some (pushAll (WithCapacity 4) [1, 2, 3, 4, 5])) = some 5 ∧
     Contains (some (pushAll (WithCapacity 4) [1, 2, 3, 4, 5])) 1 = some false) := by
  refine ⟨?_, ?_, by decide, by decide, by decide, by decide⟩
  · intro q d hn hfull htail hhead
    have hne : ¬ q.buf.length = 0 := by omega
    have hinit : (if q.buf.length = 0 then initDeque 0 else q) = q := if_neg hne
    have hidx : q.next = q.head := by
      simp only [Deque.next]
      rw [if_pos (by omega), ← hhead]
    have hupd : Deque.updateCount ⟨q.buf.set q.head d, q.count, q.head, q.tail, q.capacity⟩
        = ⟨q.buf.set q.head d, q.count, q.head, q.tail, q.capacity⟩ := by
      simp only [Deque.updateCount]
      rw [if_neg (by rw [List.length_set]; omega)]
    have hpb : q.PushBack d
        = Deque.incrementPointersRight
            ⟨q.buf.set q.head d, q.count, q.head, q.tail, q.capacity⟩ q.head := by
      simp only [Deque.PushBack]
      rw [hinit, hidx, hupd]
    rcases Nat.lt_or_ge 1 q.buf.length with hbig | hone
    · have hinc : Deque.incrementPointersRight
          ⟨q.buf.set q.head d, q.count, q.head, q.tail, q.capacity⟩ q.head
          = ⟨q.buf.set q.head d, q.count, (q.head + 1) % q.buf.length, q.head, q.capacity⟩ := by
        simp only [Deque.incrementPointersRight]
        rw [if_pos (by omega), if_neg (by omega)]
        simp only [Deque.next]
        rw [if_pos (by omega), List.length_set]
      rw [hpb, hinc]
      exact ⟨rfl, rfl, hhead, rfl⟩
    · have hb1 : q.buf.length = 1 := by omega
      have htail0 : q.tail = 0 := by omega
      have hhead0 : q.head = 0 := by
        rw [hhead, hb1, Nat.mod_one]
      have hinc : Deque.incrementPointersRight
          ⟨q.buf.set q.head d, q.count, q.head, q.tail, q.capacity⟩ q.head
          = ⟨q.buf.set q.head d, q.count, q.head, q.tail, q.capacity⟩ := by
        simp only [Deque.incrementPointersRight]
        rw [if_neg (by omega)]
      rw [hpb, hinc]
      refine ⟨rfl, ?_, ?_, rfl⟩
      · rw [hb1, Nat.mod_one, hhead0]
      · rw [hb1, Nat.mod_one, htail0]
  · intro q d hn hfull htail hhead
    have hne : ¬ q.buf.length = 0 := by omega
    have hinit : (if q.buf.length = 0 then initDeque 0 else q) = q := if_neg hne
    have hidx : q.prev q.head = q.tail := by
      simp only [Deque.prev]
      rw [if_pos (by omega)]
      rcases Nat.lt_or_ge (q.tail + 1) q.buf.length with hlt | hge
      · have hh : q.head = q.tail + 1 := by rw [hhead, Nat.mod_eq_of_lt hlt]
        rw [hh]
        have he : q.tail + 1 + q.buf.length - 1 = q.tail + q.buf.length := by omega
        rw [he, Nat.add_mod_right, Nat.mod_eq_of_lt htail]
      · have ht1 : q.tail + 1 = q.buf.length := by omega
        have hh : q.head = 0 := by rw [hhead, ht1, Nat.mod_self]
        rw [hh]
        have he : 0 + q.buf.length - 1 = q.tail := by omega
        rw [he, Nat.mod_eq_of_lt htail]
    have hupd : Deque.updateCount ⟨q.buf.set q.tail d, q.count, q.head, q.tail, q.capacity⟩
        = ⟨q.buf.set q.tail d, q.count, q.head, q.tail, q.capacity⟩ := by
      simp only [Deque.updateCount]
      rw [if_neg (by rw [List.length_set]; omega)]
    have hpf : q.PushFront d
        = Deque.incrementPointersLeft
            ⟨q.buf.set q.tail d, q.count, q.head, q.tail, q.capacity⟩ q.tail := by
      simp only [Deque.PushFront]
      rw [hinit, hidx, hupd]
    rcases Nat.lt_or_ge 1 q.buf.length with hbig | hone
    · have hinc : Deque.incrementPointersLeft
          ⟨q.buf.set q.tail d, q.count, q.head, q.tail, q.capacity⟩ q.tail
          = ⟨q.buf.set q.tail d, q.count, q.tail,
              (q.tail + q.buf.length - 1) % q.buf.length, q.capacity⟩ := by
        simp only [Deque.incrementPointersLeft]
        rw [if_pos (by omega), if_neg (by omega)]
        simp only [Deque.prev]
        rw [if_pos (by omega), List.length_set]
      rw [hpf, hinc]
      refine ⟨rfl, ?_, rfl, rfl⟩
      rw [← hidx]
      simp only [Deque.prev]
      rw [if_pos (by omega)]
    · have hb1 : q.buf.length = 1 := by omega
      have htail0 : q.tail = 0 := by omega
      have hhead0 : q.head = 0 := by
        rw [hhead, hb1, Nat.mod_one]
      have hinc : Deque.incrementPointersLeft
          ⟨q.buf.set q.tail d, q.count, q.head, q.tail, q.capacity⟩ q.tail
          = ⟨q.buf.set q.tail d, q.count, q.head, q.tail, q.capacity⟩ := by
        simp only [Deque.incrementPointersLeft]
        rw [if_neg (by omega)]
      rw [hpf, hinc]
      refine ⟨rfl, ?_, ?_, rfl⟩
      · rw [hb1, hhead0]
      · rw [hb1, htail0]

/-- C1 witness: the full capacity-4 deque `[1, 2, 3, 4]` (head 0, tail 3)
pushed with 9 keeps count 4, advances head to slot 1 and tail to slot 0, and
overwrites the oldest element at slot 0. -/
theorem c1_witness :
    ((⟨[1, 2, 3, 4], 4, 0, 3, 4⟩ : Deque).PushBack 9).count = 4 ∧
    ((⟨[1, 2, 3, 4], 4, 0, 3, 4⟩ : Deque).PushBack 9).head = 1 ∧
    ((⟨[1, 2, 3, 4], 4, 0, 3, 4⟩ : Deque).PushBack 9).tail = 0 ∧
    ((⟨[1, 2, 3, 4], 4, 0, 3, 4⟩ : Deque).PushBack 9).buf = [9, 2, 3, 4] :=
  c1_saturated_push_eviction.1 ⟨[1, 2, 3, 4], 4, 0, 3, 4⟩ 9
    (by decide) (by decide) (by decide) (by decide)

/-- C10 witness: instantiating the nil-fault and lazy-initialization facts at
concrete instances. -/
theorem c10_witness :
    PushBack none 3 = none ∧
    ((⟨[], 7, 7, 7, 7⟩ : Deque).PushBack 3).buf.length = minCap ∧
    ((⟨[0], 0, 0, 0, 1⟩ : Deque).PushBack 3).buf.length = 1 :=
  ⟨c10_nil_push_faults.1 3,
   (c10_nil_push_faults.2.2.1 ⟨[], 7, 7, 7, 7⟩ 3 rfl).1,
   (c10_nil_push_faults.2.2.2 ⟨[0], 0, 0, 0, 1⟩ 3 (by decide)).1⟩

end Goccoli
